import Mathlib

/-!
Shallow embedding of the SearchAfterburner orchestrator core
(src/service/orchestrator) and proofs about the claims of its
specification.

Conventions used throughout:
- Python `float` values (times, qualities, confidences) are modelled as `ℚ`.
- Wall-clock reads (`time.time()`) are made explicit: every operation that
  consults the clock takes a `now : ℚ` argument.
- Python dicts are modelled as association lists with unique keys;
  `OrderedDict` (memory LRU tier) is an association list whose order is the
  recency order (front = least recently used, back = most recently used).
- Code that catches an exception and recovers is modelled with `Option`
  (`none` = the call raised); code that raises to the caller is modelled
  with `Except`.
-/

set_option autoImplicit false

namespace SearchAfterburner

/-! ### Association-list helpers (Python dict semantics) -/

/-- Lookup the first binding of `k` (Python `d[k]` / `k in d`). -/
def assocFind {α : Type} (k : String) : List (String × α) → Option α
  | [] => none
  | (k', v) :: rest => if k' = k then some v else assocFind k rest

/-- Remove every binding of `k` (Python `del d[k]`; with unique keys this
removes the one binding). -/
def assocErase {α : Type} (k : String) : List (String × α) → List (String × α)
  | [] => []
  | (k', v) :: rest =>
    if k' = k then assocErase k rest else (k', v) :: assocErase k rest

/-- Python dict assignment `d[k] = v`: overwrite in place if present
(keeping the key's position), else append at the end. -/
def assocUpdate {α : Type} (k : String) (v : α) : List (String × α) → List (String × α)
  | [] => [(k, v)]
  | (k', v') :: rest =>
    if k' = k then (k, v) :: rest else (k', v') :: assocUpdate k v rest

theorem assocFind_append_left_none {α : Type} (k : String)
    (xs ys : List (String × α)) (h : assocFind k xs = none) :
    assocFind k (xs ++ ys) = assocFind k ys := by
  induction xs with
  | nil => rfl
  | cons x rest ih =>
    obtain ⟨k', v⟩ := x
    simp only [assocFind] at h ⊢
    by_cases hk : k' = k
    · simp [hk] at h
    · simp only [if_neg hk] at h ⊢
      exact ih h

theorem assocFind_assocErase_self {α : Type} (k : String)
    (l : List (String × α)) : assocFind k (assocErase k l) = none := by
  induction l with
  | nil => rfl
  | cons x rest ih =>
    obtain ⟨k', v⟩ := x
    simp only [assocErase]
    by_cases hk : k' = k
    · simpa [hk] using ih
    · simpa [assocFind, hk] using ih

theorem assocFind_mem {α : Type} {k : String} {v : α}
    {l : List (String × α)} (h : assocFind k l = some v) : (k, v) ∈ l := by
  induction l with
  | nil => simp [assocFind] at h
  | cons x rest ih =>
    obtain ⟨k', v'⟩ := x
    simp only [assocFind] at h
    by_cases hk : k' = k
    · simp only [if_pos hk] at h
      cases h
      simp [hk]
    · simp only [if_neg hk] at h
      exact List.mem_cons_of_mem _ (ih h)

theorem assocFind_isSome_of_mem {α : Type} {k : String} {v : α}
    {l : List (String × α)} (h : (k, v) ∈ l) : (assocFind k l).isSome := by
  induction l with
  | nil => simp at h
  | cons x rest ih =>
    obtain ⟨k', v'⟩ := x
    rcases List.mem_cons.mp h with h1 | h2
    · cases h1
      simp [assocFind]
    · by_cases hk : k' = k
      · simp [assocFind, hk]
      · simpa [assocFind, hk] using ih h2

theorem assocErase_length_lt {α : Type} (k : String)
    (l : List (String × α)) (h : (assocFind k l).isSome) :
    (assocErase k l).length < l.length := by
  induction l with
  | nil => simp [assocFind] at h
  | cons x rest ih =>
    obtain ⟨k', v⟩ := x
    simp only [assocErase, assocFind] at h ⊢
    by_cases hk : k' = k
    · simp only [if_pos hk]
      calc (assocErase k rest).length ≤ rest.length := by
            clear h ih
            induction rest with
            | nil => simp [assocErase]
            | cons y t iht =>
              obtain ⟨ky, vy⟩ := y
              simp only [assocErase]
              by_cases hky : ky = k
              · simp only [if_pos hky, List.length_cons]
                omega
              · simp only [if_neg hky, List.length_cons]
                omega
        _ < (⟨k', v⟩ :: rest : List (String × α)).length := by
            simp
    · simp only [if_neg hk] at h ⊢
      have := ih h
      simp only [List.length_cons]
      omega

theorem assocErase_subset {α : Type} (k : String)
    (l : List (String × α)) : ∀ x ∈ assocErase k l, x ∈ l := by
  induction l with
  | nil => simp [assocErase]
  | cons y rest ih =>
    obtain ⟨k', v⟩ := y
    intro x hx
    simp only [assocErase] at hx
    by_cases hk : k' = k
    · simp only [if_pos hk] at hx
      exact List.mem_cons_of_mem _ (ih x hx)
    · simp only [if_neg hk] at hx
      rcases List.mem_cons.mp hx with h1 | h2
      · simp [h1]
      · exact List.mem_cons_of_mem _ (ih x h2)

theorem assocErase_no_key {α : Type} (k : String) (l : List (String × α)) :
    ∀ v : α, (k, v) ∉ assocErase k l := by
  intro v hv
  have := assocFind_isSome_of_mem hv
  rw [assocFind_assocErase_self] at this
  simp at this

/-! ### Memory-tier LRU cache

From `src/service/orchestrator/cache/memory.py` (`LRUCache`).
The `OrderedDict` is an association list in recency order: front = least
recently used.  `move_to_end` is modelled as remove-then-append. -/

structure MemEntry (α : Type) where
  value : α
  expiresAt : Option ℚ
  createdAt : ℚ
  deriving Repr, DecidableEq

structure LRUCache (α : Type) where
  maxsize : ℕ
  cache : List (String × MemEntry α)
  hits : ℕ
  misses : ℕ
  deriving Repr, DecidableEq

/-- The `while len(self._cache) > self.maxsize: self._cache.popitem(last=False)`
loop: drop from the front (least recently used) until within capacity. -/
def evictLoop {α : Type} (maxsize : ℕ) :
    List (String × MemEntry α) → List (String × MemEntry α)
  | [] => []
  | x :: rest =>
    if (x :: rest).length > maxsize then evictLoop maxsize rest else x :: rest

/-- `LRUCache.get`: TTL checked lazily; a hit moves the key to the
most-recently-used end; an expired entry is deleted and reported as a miss. -/
def LRUCache.get {α : Type} (c : LRUCache α) (now : ℚ) (key : String) :
    Option α × LRUCache α :=
  match assocFind key c.cache with
  | some entry =>
    match entry.expiresAt with
    | none =>
      (some entry.value,
       { c with cache := assocErase key c.cache ++ [(key, entry)],
                hits := c.hits + 1 })
    | some e =>
      if now < e then
        (some entry.value,
         { c with cache := assocErase key c.cache ++ [(key, entry)],
                  hits := c.hits + 1 })
      else
        (none, { c with cache := assocErase key c.cache,
                        misses := c.misses + 1 })
  | none => (none, { c with misses := c.misses + 1 })

/-- `LRUCache.put`: delete any existing binding, append the new entry at the
most-recently-used end, then evict from the least-recently-used end while
over capacity. -/
def LRUCache.put {α : Type} (c : LRUCache α) (now : ℚ) (key : String)
    (v : α) (ttl : Option ℚ) : LRUCache α :=
  let expiresAt := ttl.map (fun t => now + t)
  let inserted :=
    assocErase key c.cache ++ [(key, ⟨v, expiresAt, now⟩)]
  { c with cache := evictLoop c.maxsize inserted }

theorem evictLoop_eq_drop {α : Type} (maxsize : ℕ)
    (l : List (String × MemEntry α)) :
    evictLoop maxsize l = l.drop (l.length - maxsize) := by
  induction l with
  | nil => simp [evictLoop]
  | cons x rest ih =>
    simp only [evictLoop, List.length_cons]
    by_cases h : rest.length + 1 > maxsize
    · simp only [if_pos h]
      rw [ih]
      have h1 : rest.length + 1 - maxsize = (rest.length - maxsize) + 1 := by
        omega
      rw [h1]
      simp
    · simp only [if_neg h]
      have h2 : rest.length + 1 - maxsize = 0 := by omega
      simp [h2]

theorem evictLoop_length_le {α : Type} (maxsize : ℕ)
    (l : List (String × MemEntry α)) :
    (evictLoop maxsize l).length ≤ maxsize := by
  induction l with
  | nil => simp [evictLoop]
  | cons x rest ih =>
    simp only [evictLoop, List.length_cons]
    by_cases h : rest.length + 1 > maxsize
    · simpa [h] using ih
    · simp only [if_neg h, List.length_cons]
      omega

theorem LRUCache.put_length_le {α : Type} (c : LRUCache α) (now : ℚ)
    (key : String) (v : α) (ttl : Option ℚ) :
    ((c.put now key v ttl).cache).length ≤ c.maxsize := by
  unfold LRUCache.put
  exact evictLoop_length_le _ _

/-- After a put, the key's binding in the cache (if it survived eviction)
is exactly the freshly inserted entry. -/
theorem LRUCache.put_find_cases {α : Type} (c : LRUCache α) (now : ℚ)
    (key : String) (v : α) (ttl : Option ℚ) :
    assocFind key (c.put now key v ttl).cache = none ∨
    assocFind key (c.put now key v ttl).cache =
      some ⟨v, ttl.map (fun t => now + t), now⟩ := by
  unfold LRUCache.put
  simp only
  set ent : MemEntry α := ⟨v, ttl.map (fun t => now + t), now⟩ with hent
  cases hfind : assocFind key
      (evictLoop c.maxsize (assocErase key c.cache ++ [(key, ent)])) with
  | none => left; rfl
  | some w =>
    right
    have hmem := assocFind_mem hfind
    rw [evictLoop_eq_drop] at hmem
    have hmem2 : (key, w) ∈ assocErase key c.cache ++ [(key, ent)] :=
      List.drop_subset _ _ hmem
    rcases List.mem_append.mp hmem2 with h1 | h1
    · exact absurd h1 (assocErase_no_key key c.cache w)
    · simp only [List.mem_singleton, Prod.mk.injEq] at h1
      exact congrArg some h1.2

/-- If the capacity is at least 1, the entry just put is present (the
eviction loop only drops from the front, and the fresh entry sits at the
back). -/
theorem LRUCache.put_find_of_pos {α : Type} (c : LRUCache α) (now : ℚ)
    (key : String) (v : α) (ttl : Option ℚ) (hpos : 1 ≤ c.maxsize) :
    assocFind key (c.put now key v ttl).cache =
      some ⟨v, ttl.map (fun t => now + t), now⟩ := by
  unfold LRUCache.put
  simp only
  set ent : MemEntry α := ⟨v, ttl.map (fun t => now + t), now⟩ with hent
  rw [evictLoop_eq_drop]
  set l := assocErase key c.cache ++ [(key, ent)] with hl
  have hlen : l.length = (assocErase key c.cache).length + 1 := by
    simp [hl]
  have hdroplt : l.length - c.maxsize ≤ (assocErase key c.cache).length := by
    omega
  rw [hl, List.drop_append_of_le_length hdroplt]
  rw [assocFind_append_left_none]
  · simp [assocFind]
  · cases hres : assocFind key ((assocErase key c.cache).drop (l.length - c.maxsize)) with
    | none => rfl
    | some w =>
      exfalso
      have hmem := assocFind_mem hres
      have : (key, w) ∈ assocErase key c.cache := List.drop_subset _ _ hmem
      exact assocErase_no_key key c.cache w this

/-- An expired binding (now at or past its expiry) makes `get` miss and
removes the entry. -/
theorem lruGet_expired {α : Type} (c : LRUCache α) (now : ℚ)
    (key : String) (ent : MemEntry α) (e : ℚ)
    (hfind : assocFind key c.cache = some ent)
    (hexp : ent.expiresAt = some e) (hnow : ¬ now < e) :
    (c.get now key).1 = none ∧
    assocFind key (c.get now key).2.cache = none := by
  simp only [LRUCache.get, hfind, hexp, if_neg hnow]
  exact ⟨trivial, assocFind_assocErase_self key c.cache⟩

theorem assocFind_assocUpdate_self {α : Type} (k : String) (v : α)
    (l : List (String × α)) : assocFind k (assocUpdate k v l) = some v := by
  induction l with
  | nil => simp [assocUpdate, assocFind]
  | cons x rest ih =>
    obtain ⟨k', v'⟩ := x
    simp only [assocUpdate]
    by_cases hk : k' = k
    · simp [hk, assocFind]
    · simpa [assocFind, hk] using ih

/-! ### Disk-tier cache

From `src/service/orchestrator/cache/disk.py` (`DiskCache`).
The metadata index (`metadata["entries"]`, `metadata["total_size"]`) and the
per-key payload files are modelled explicitly; `_save_metadata` is a no-op in
the model (its failure path only logs).  The pluggable serializer is modelled
as the identity on the payload string, with `size = String.length`; disk I/O
is modelled as reliable (the `except` fallbacks of `get`/`put` guard real
I/O faults, which are out of scope of a functional model). -/

structure DiskEntry where
  size : ℕ
  createdAt : ℚ
  expiresAt : Option ℚ
  lastAccessed : ℚ
  accessCount : ℕ
  deriving Repr, DecidableEq

structure DiskCache where
  maxSizeBytes : ℕ
  entries : List (String × DiskEntry)
  totalSize : ℤ
  files : List (String × String)
  hits : ℕ
  misses : ℕ
  deriving Repr, DecidableEq

/-- `DiskCache.delete`: drop the metadata entry, subtract its size, unlink
the payload file. -/
def DiskCache.delete (c : DiskCache) (key : String) : DiskCache :=
  match assocFind key c.entries with
  | some entry =>
    { c with totalSize := c.totalSize - entry.size,
             entries := assocErase key c.entries,
             files := assocErase key c.files }
  | none => c

/-- Python `min(keys, key=lambda k: last_accessed)`: the first key attaining
the minimal `last_accessed` (iteration in insertion order, strict `<` to
replace the running best). -/
def lruKeyAux (best : String × DiskEntry) : List (String × DiskEntry) → String
  | [] => best.1
  | x :: rest =>
    if x.2.lastAccessed < best.2.lastAccessed then lruKeyAux x rest
    else lruKeyAux best rest

def lruKey : List (String × DiskEntry) → Option String
  | [] => none
  | x :: rest => some (lruKeyAux x rest)

theorem lruKeyAux_is_key (best : String × DiskEntry)
    (l : List (String × DiskEntry)) :
    lruKeyAux best l = best.1 ∨ ∃ x ∈ l, lruKeyAux best l = x.1 := by
  induction l generalizing best with
  | nil => left; rfl
  | cons x rest ih =>
    simp only [lruKeyAux]
    by_cases h : x.2.lastAccessed < best.2.lastAccessed
    · simp only [if_pos h]
      rcases ih x with h1 | ⟨y, hy, h1⟩
      · right; exact ⟨x, List.mem_cons_self x rest, h1⟩
      · right; exact ⟨y, List.mem_cons_of_mem _ hy, h1⟩
    · simp only [if_neg h]
      rcases ih best with h1 | ⟨y, hy, h1⟩
      · left; exact h1
      · right; exact ⟨y, List.mem_cons_of_mem _ hy, h1⟩

theorem lruKey_mem (l : List (String × DiskEntry)) (h : l ≠ []) :
    ∃ v, (((lruKey l).getD ""), v) ∈ l := by
  cases l with
  | nil => exact absurd rfl h
  | cons x rest =>
    simp only [lruKey, Option.getD_some]
    rcases lruKeyAux_is_key x rest with h1 | ⟨y, hy, h1⟩
    · exact ⟨x.2, by rw [h1]; exact List.mem_cons_self x rest⟩
    · exact ⟨y.2, by rw [h1]; exact List.mem_cons_of_mem _ hy⟩

theorem DiskCache.delete_entries_length (c : DiskCache) (k : String)
    (h : ∃ v, (k, v) ∈ c.entries) :
    (c.delete k).entries.length < c.entries.length := by
  obtain ⟨v, hv⟩ := h
  have hsome := assocFind_isSome_of_mem hv
  unfold DiskCache.delete
  cases hfind : assocFind k c.entries with
  | none => rw [hfind] at hsome; simp at hsome
  | some e =>
    simp only
    exact assocErase_length_lt k c.entries (by rw [hfind]; rfl)

/-- `_ensure_space`: evict the least-recently-accessed entry while the new
payload would not fit and entries remain. -/
def DiskCache.ensureSpace (c : DiskCache) (required : ℕ) : DiskCache :=
  if h : c.totalSize + (required : ℤ) > (c.maxSizeBytes : ℤ) ∧ c.entries ≠ [] then
    DiskCache.ensureSpace (c.delete ((lruKey c.entries).getD "")) required
  else c
termination_by c.entries.length
decreasing_by
  exact DiskCache.delete_entries_length c _ (lruKey_mem c.entries h.2)

/-- `DiskCache.get`: payload-file existence check, orphan cleanup, lazy TTL
check (deleting on expiry), then read + access bookkeeping. -/
def DiskCache.get (c : DiskCache) (now : ℚ) (key : String) :
    Option String × DiskCache :=
  match assocFind key c.files with
  | none => (none, { c with misses := c.misses + 1 })
  | some data =>
    match assocFind key c.entries with
    | none =>
      (none, { c with files := assocErase key c.files,
                      misses := c.misses + 1 })
    | some entry =>
      let expired : Bool :=
        match entry.expiresAt with
        | some e => decide (now ≥ e)
        | none => false
      if expired then
        (none, { c.delete key with misses := c.misses + 1 })
      else
        (some data,
         { c with
             entries := assocUpdate key
               { entry with accessCount := entry.accessCount + 1,
                            lastAccessed := now } c.entries,
             hits := c.hits + 1 })

/-- `DiskCache.put`: reject a payload alone exceeding capacity, make room,
write the payload file and the metadata entry. -/
def DiskCache.put (c : DiskCache) (now : ℚ) (key : String) (v : String)
    (ttl : Option ℚ) : DiskCache :=
  let data := v
  if data.length > c.maxSizeBytes then c
  else
    let c1 := c.ensureSpace data.length
    let expiresAt := ttl.map (fun t => now + t)
    { c1 with
        files := assocUpdate key data c1.files,
        entries := assocUpdate key
          ⟨data.length, now, expiresAt, now, 0⟩ c1.entries,
        totalSize := c1.totalSize + data.length }

theorem diskGet_expired (c : DiskCache) (now : ℚ) (key : String)
    (data : String) (entry : DiskEntry) (e : ℚ)
    (hfile : assocFind key c.files = some data)
    (hmeta : assocFind key c.entries = some entry)
    (hexp : entry.expiresAt = some e) (hnow : now ≥ e) :
    (c.get now key).1 = none ∧
    assocFind key (c.get now key).2.entries = none := by
  simp only [DiskCache.get, hfile, hmeta, hexp, ge_iff_le, hnow,
    decide_eq_true_eq, if_pos]
  refine ⟨trivial, ?_⟩
  simp only [DiskCache.delete, hmeta]
  exact assocFind_assocErase_self key c.entries

theorem LRUCache.put_maxsize {α : Type} (c : LRUCache α) (now : ℚ)
    (key : String) (v : α) (ttl : Option ℚ) :
    (c.put now key v ttl).maxsize = c.maxsize := rfl

theorem foldl_put_length_le {α : Type}
    (ops : List (ℚ × String × α × Option ℚ)) (c : LRUCache α)
    (h : c.cache.length ≤ c.maxsize) :
    ((ops.foldl (fun c op => c.put op.1 op.2.1 op.2.2.1 op.2.2.2) c).cache).length ≤
      (ops.foldl (fun c op => c.put op.1 op.2.1 op.2.2.1 op.2.2.2) c).maxsize ∧
    (ops.foldl (fun c op => c.put op.1 op.2.1 op.2.2.1 op.2.2.2) c).maxsize =
      c.maxsize := by
  induction ops generalizing c with
  | nil => exact ⟨h, rfl⟩
  | cons op rest ih =>
    simp only [List.foldl_cons]
    have hc' := LRUCache.put_length_le c op.1 op.2.1 op.2.2.1 op.2.2.2
    have := ih (c.put op.1 op.2.1 op.2.2.1 op.2.2.2) hc'
    exact ⟨this.1, this.2.trans (LRUCache.put_maxsize c _ _ _ _)⟩

/-- C5: every `LRUCache.put` leaves at most `maxsize` entries in the memory
tier (hence any finite sequence of puts keeps the count at or below the
configured capacity after each put), and on overflow the eviction loop
removes entries exactly from the least-recently-used end of the recency
order (the front of the `OrderedDict`): the resulting cache is the inserted
list with its overflow dropped from the front. -/
theorem lru_put_capacity_and_evicts_lru :
    (∀ (α : Type) (c : LRUCache α) (now : ℚ) (k : String) (v : α)
       (ttl : Option ℚ),
       ((c.put now k v ttl).cache).length ≤ c.maxsize)
    ∧
    (∀ (α : Type) (c : LRUCache α) (now : ℚ) (k : String) (v : α)
       (ttl : Option ℚ),
       (c.put now k v ttl).cache =
         (assocErase k c.cache ++
            [(k, (⟨v, ttl.map (fun t => now + t), now⟩ : MemEntry α))]).drop
           ((assocErase k c.cache ++
              [(k, (⟨v, ttl.map (fun t => now + t), now⟩ : MemEntry α))]).length -
             c.maxsize))
    ∧
    (∀ (α : Type) (N : ℕ) (ops : List (ℚ × String × α × Option ℚ)),
       ((ops.foldl (fun c op => c.put op.1 op.2.1 op.2.2.1 op.2.2.2)
           (⟨N, [], 0, 0⟩ : LRUCache α)).cache).length ≤ N) := by
  refine ⟨fun α c now k v ttl => LRUCache.put_length_le c now k v ttl,
          fun α c now k v ttl => ?_,
          fun α N ops => ?_⟩
  · unfold LRUCache.put
    exact evictLoop_eq_drop _ _
  · have := foldl_put_length_le ops (⟨N, [], 0, 0⟩ : LRUCache α)
      (by simp)
    rw [this.2] at this
    exact this.1

/-- C6: an entry stored with `ttl = t` at time `t0` and read at any time
strictly after `t0 + t` reports absent and is removed from the tier, in both
the memory tier and the disk tier (for the disk tier, provided the payload
was accepted, i.e. it alone does not exceed the byte capacity). -/
theorem ttl_expired_get_absent :
    (∀ (α : Type) (c : LRUCache α) (t0 t now : ℚ) (k : String) (v : α),
       now > t0 + t →
       (((c.put t0 k v (some t)).get now k).1 = none ∧
        assocFind k ((c.put t0 k v (some t)).get now k).2.cache = none))
    ∧
    (∀ (c : DiskCache) (t0 t now : ℚ) (k : String) (v : String),
       v.length ≤ c.maxSizeBytes →
       now > t0 + t →
       (((c.put t0 k v (some t)).get now k).1 = none ∧
        assocFind k ((c.put t0 k v (some t)).get now k).2.entries = none)) := by
  constructor
  · intro α c t0 t now k v hnow
    set c' := c.put t0 k v (some t) with hc'
    rcases LRUCache.put_find_cases c t0 k v (some t) with hfind | hfind
    · rw [← hc'] at hfind
      constructor
      · simp [LRUCache.get, hfind]
      · simp [LRUCache.get, hfind]
    · rw [← hc'] at hfind
      exact lruGet_expired c' now k _ (t0 + t) hfind rfl (by linarith)
  · intro c t0 t now k v hsize hnow
    have hput : c.put t0 k v (some t) =
        { c.ensureSpace v.length with
            files := assocUpdate k v (c.ensureSpace v.length).files,
            entries := assocUpdate k
              ⟨v.length, t0, some (t0 + t), t0, 0⟩
              (c.ensureSpace v.length).entries,
            totalSize := (c.ensureSpace v.length).totalSize + v.length } := by
      unfold DiskCache.put
      have hle : ¬ v.length > c.maxSizeBytes := not_lt.mpr hsize
      simp [hle, Option.map]
    rw [hput]
    exact diskGet_expired _ now k v _ (t0 + t)
      (assocFind_assocUpdate_self k v _)
      (assocFind_assocUpdate_self k _ _)
      rfl (by linarith)

/-- Witness for `ttl_expired_get_absent` at concrete inputs: a value put at
time 0 with ttl 1, read at time 3, is absent in both tiers. -/
theorem ttl_expired_get_absent_witness :
    ((3 : ℚ) > 0 + 1) ∧
    ((((⟨2, [], 0, 0⟩ : LRUCache ℕ).put 0 "q" 7 (some 1)).get 3 "q").1 = none) ∧
    ((("val" : String).length ≤ (⟨100, [], 0, [], 0, 0⟩ : DiskCache).maxSizeBytes) ∧
     (((⟨100, [], 0, [], 0, 0⟩ : DiskCache).put 0 "q" "val" (some 1)).get 3 "q").1 = none) := by
  refine ⟨by norm_num, ?_, by decide, ?_⟩
  · exact (ttl_expired_get_absent.1 ℕ ⟨2, [], 0, 0⟩ 0 1 3 "q" 7 (by norm_num)).1
  · exact (ttl_expired_get_absent.2 ⟨100, [], 0, [], 0, 0⟩ 0 1 3 "q" "val"
      (by decide) (by norm_num)).1

/-! ### Circuit breaker and hedged request

From `src/service/orchestrator/net/session.py` (`CircuitBreaker`,
`HedgedSession._hedged_request`).  Times are in milliseconds (`now` stands
for `time.time() * 1000`).  A request's outcome per attempt is supplied by
an oracle `outcomes : ℕ → Option ρ` (`some r` = the HTTP call returned,
`none` = it raised); sleeps (jitter, backoff) do not affect the modelled
state and are elided. -/

inductive BreakerState
  | CLOSED
  | OPEN
  | HALF_OPEN
  deriving Repr, DecidableEq

structure CircuitBreaker where
  threshold : ℕ
  timeoutMs : ℚ
  failureCount : ℕ
  lastFailureTime : ℚ
  state : BreakerState
  deriving Repr, DecidableEq

def CircuitBreaker.mkNew (threshold : ℕ) (timeoutMs : ℚ) : CircuitBreaker :=
  ⟨threshold, timeoutMs, 0, 0, .CLOSED⟩

/-- `is_open`: in OPEN, flip to HALF_OPEN (admitting the call) only once
strictly more than `timeout_ms` has elapsed since the last failure. -/
def CircuitBreaker.isOpen (b : CircuitBreaker) (now : ℚ) :
    Bool × CircuitBreaker :=
  match b.state with
  | .OPEN =>
    if now - b.lastFailureTime > b.timeoutMs then
      (false, { b with state := .HALF_OPEN })
    else (true, b)
  | _ => (false, b)

def CircuitBreaker.recordSuccess (b : CircuitBreaker) : CircuitBreaker :=
  { b with failureCount := 0, state := .CLOSED }

def CircuitBreaker.recordFailure (b : CircuitBreaker) (now : ℚ) :
    CircuitBreaker :=
  let n := b.failureCount + 1
  { b with failureCount := n, lastFailureTime := now,
           state := if n ≥ b.threshold then .OPEN else b.state }

def recordFailures (b : CircuitBreaker) (times : List ℚ) : CircuitBreaker :=
  times.foldl (fun b t => b.recordFailure t) b

structure NetworkConfig where
  timeoutMs : ℚ := 5000
  hedgeDelayMs : ℚ := 100
  maxRetries : ℕ := 3
  backoffFactor : ℚ := 3/2
  jitterMs : ℚ := 50
  circuitBreakerThreshold : ℕ := 5
  circuitBreakerTimeoutMs : ℚ := 30000
  deriving Repr, DecidableEq

/-- The retry loop of `_hedged_request`: up to `maxRetries + 1` attempts,
recording a success/failure on the breaker per attempt, returning the first
response.  Result: (response or raised error, final breaker state, number of
network attempts actually made). -/
def hedgedLoop {ρ : Type} (outcomes : ℕ → Option ρ) (now : ℚ) :
    ℕ → ℕ → CircuitBreaker → Option ρ × CircuitBreaker × ℕ
  | 0, _, b => (none, b, 0)
  | n + 1, i, b =>
    match outcomes i with
    | some r => (some r, b.recordSuccess, 1)
    | none =>
      let b' := b.recordFailure now
      let res := hedgedLoop outcomes now n (i + 1) b'
      (res.1, res.2.1, res.2.2 + 1)

/-- `_hedged_request`: an open breaker short-circuits (raises, zero network
attempts); otherwise run the retry loop. -/
def hedgedRequest {ρ : Type} (cfg : NetworkConfig) (b : CircuitBreaker)
    (now : ℚ) (outcomes : ℕ → Option ρ) : Option ρ × CircuitBreaker × ℕ :=
  let check := b.isOpen now
  if check.1 then (none, check.2, 0)
  else hedgedLoop outcomes now (cfg.maxRetries + 1) 0 check.2

/-- States of the breaker reachable from a fresh instance through its three
methods. -/
inductive BreakerReachable : CircuitBreaker → Prop
  | mkNew (t : ℕ) (ms : ℚ) : BreakerReachable (CircuitBreaker.mkNew t ms)
  | success {b : CircuitBreaker} :
      BreakerReachable b → BreakerReachable b.recordSuccess
  | failure {b : CircuitBreaker} (now : ℚ) :
      BreakerReachable b → BreakerReachable (b.recordFailure now)
  | check {b : CircuitBreaker} (now : ℚ) :
      BreakerReachable b → BreakerReachable (b.isOpen now).2


/-- In every reachable state, OPEN or HALF_OPEN implies the failure count
has reached the threshold. -/
theorem breakerReachable_count (b : CircuitBreaker)
    (hb : BreakerReachable b) :
    (b.state = .OPEN ∨ b.state = .HALF_OPEN) →
    b.threshold ≤ b.failureCount := by
  induction hb with
  | mkNew t ms =>
    intro h
    rcases h with h | h <;> simp [CircuitBreaker.mkNew] at h
  | success hb ih =>
    intro h
    rcases h with h | h <;> simp [CircuitBreaker.recordSuccess] at h
  | @failure b now hb ih =>
    intro h
    simp only [CircuitBreaker.recordFailure]
    by_cases hth : b.failureCount + 1 ≥ b.threshold
    · omega
    · simp only [CircuitBreaker.recordFailure, if_neg hth] at h
      have := ih h
      omega
  | @check b now hb ih =>
    intro h
    have hstate : (b.isOpen now).2.state = b.state ∨
        (b.state = .OPEN ∧ (b.isOpen now).2.state = .HALF_OPEN) := by
      obtain ⟨th, ms, fc, lt, st⟩ := b
      cases st with
      | OPEN =>
        by_cases ht : now - lt > ms <;>
          simp [CircuitBreaker.isOpen, ht]
      | CLOSED => left; rfl
      | HALF_OPEN => left; rfl
    have hcnt : (b.isOpen now).2.failureCount = b.failureCount ∧
        (b.isOpen now).2.threshold = b.threshold := by
      obtain ⟨th, ms, fc, lt, st⟩ := b
      cases st with
      | OPEN =>
        by_cases ht : now - lt > ms <;>
          simp [CircuitBreaker.isOpen, ht]
      | CLOSED => exact ⟨rfl, rfl⟩
      | HALF_OPEN => exact ⟨rfl, rfl⟩
    rw [hcnt.2, hcnt.1]
    rcases hstate with hs | ⟨hbo, hs⟩
    · rw [hs] at h
      exact ih h
    · exact ih (Or.inl hbo)

/-- Each recorded failure increments the count by one and preserves the
threshold, unconditionally. -/
theorem recordFailures_count (times : List ℚ) (b : CircuitBreaker) :
    (recordFailures b times).failureCount = b.failureCount + times.length ∧
    (recordFailures b times).threshold = b.threshold := by
  induction times generalizing b with
  | nil => exact ⟨rfl, rfl⟩
  | cons t rest ih =>
    simp only [recordFailures, List.foldl_cons, List.length_cons] at ih ⊢
    have h2 := ih (b.recordFailure t)
    constructor
    · rw [h2.1]
      show b.failureCount + 1 + rest.length = b.failureCount + (rest.length + 1)
      omega
    · rw [h2.2]
      rfl

theorem recordFailures_state_closed (times : List ℚ) (b : CircuitBreaker)
    (hst : b.state = .CLOSED)
    (hcnt : b.failureCount + times.length < b.threshold) :
    (recordFailures b times).state = .CLOSED := by
  induction times generalizing b with
  | nil => simpa [recordFailures] using hst
  | cons t rest ih =>
    simp only [recordFailures, List.foldl_cons, List.length_cons] at hcnt ⊢
    have hth : ¬ b.failureCount + 1 ≥ b.threshold := by omega
    have hb' : (b.recordFailure t).state = .CLOSED := by
      simp [CircuitBreaker.recordFailure, hth, hst]
    have hcnt' : (b.recordFailure t).failureCount + rest.length <
        (b.recordFailure t).threshold := by
      simp only [CircuitBreaker.recordFailure]
      omega
    exact ih (b.recordFailure t) hb' hcnt'

theorem recordFailures_state_open (times : List ℚ) (b : CircuitBreaker)
    (hst : b.state = .OPEN) :
    (recordFailures b times).state = .OPEN := by
  induction times generalizing b with
  | nil => simpa [recordFailures] using hst
  | cons t rest ih =>
    simp only [recordFailures, List.foldl_cons]
    apply ih
    simp only [CircuitBreaker.recordFailure]
    by_cases hth : b.failureCount + 1 ≥ b.threshold <;> simp [hth, hst]

theorem recordFailures_state_reaches_open (times : List ℚ)
    (b : CircuitBreaker) (hst : b.state = .CLOSED)
    (hbelow : b.failureCount + 1 ≤ b.threshold)
    (hreach : b.threshold ≤ b.failureCount + times.length) :
    (recordFailures b times).state = .OPEN := by
  induction times generalizing b with
  | nil =>
    exfalso
    simp only [List.length_nil, Nat.add_zero] at hreach
    omega
  | cons t rest ih =>
    simp only [recordFailures, List.foldl_cons, List.length_cons] at hreach ⊢
    by_cases hth : b.failureCount + 1 ≥ b.threshold
    · have hb' : (b.recordFailure t).state = .OPEN := by
        simp [CircuitBreaker.recordFailure, hth]
      exact recordFailures_state_open rest _ hb'
    · have hb' : (b.recordFailure t).state = .CLOSED := by
        simp [CircuitBreaker.recordFailure, hth, hst]
      have h1 : (b.recordFailure t).failureCount + 1 ≤ (b.recordFailure t).threshold := by
        simp only [CircuitBreaker.recordFailure]
        omega
      have h2 : (b.recordFailure t).threshold ≤
          (b.recordFailure t).failureCount + rest.length := by
        simp only [CircuitBreaker.recordFailure]
        omega
      exact ih (b.recordFailure t) hb' h1 h2

theorem hedgedLoop_attempts_pos {ρ : Type} (outcomes : ℕ → Option ρ)
    (now : ℚ) (n i : ℕ) (b : CircuitBreaker) :
    1 ≤ (hedgedLoop outcomes now (n + 1) i b).2.2 := by
  simp only [hedgedLoop]
  cases outcomes i with
  | some r => simp
  | none => simp

/-- C4: the circuit breaker three-state machine.
(1) From a fresh breaker, fewer than `threshold` consecutive failures leave
it CLOSED, and exactly `threshold` consecutive failures put it in OPEN
(for any positive threshold).
(2) While OPEN with strictly less than `timeout_ms` elapsed since the last
failure, `is_open` reports open and `_hedged_request` raises with zero
network attempts, leaving the breaker unchanged.
(3) Once strictly more than `timeout_ms` has elapsed, the next check flips
OPEN to HALF_OPEN and the request is admitted (at least one attempt is
made).
(4) A recorded success, in any state, resets to CLOSED with failure count 0.
(5) In any reachable HALF_OPEN state, a recorded failure returns the breaker
to OPEN. -/
theorem circuit_breaker_state_machine :
    (∀ (t : ℕ) (ms : ℚ) (times : List ℚ),
       1 ≤ t → times.length = t →
       (recordFailures (CircuitBreaker.mkNew t ms) times).state = .OPEN)
    ∧
    (∀ (t : ℕ) (ms : ℚ) (times : List ℚ),
       times.length < t →
       (recordFailures (CircuitBreaker.mkNew t ms) times).state = .CLOSED)
    ∧
    (∀ (ρ : Type) (cfg : NetworkConfig) (b : CircuitBreaker) (now : ℚ)
       (outcomes : ℕ → Option ρ),
       b.state = .OPEN → now - b.lastFailureTime < b.timeoutMs →
       b.isOpen now = (true, b) ∧
       hedgedRequest cfg b now outcomes = (none, b, 0))
    ∧
    (∀ (ρ : Type) (cfg : NetworkConfig) (b : CircuitBreaker) (now : ℚ)
       (outcomes : ℕ → Option ρ),
       b.state = .OPEN → now - b.lastFailureTime > b.timeoutMs →
       (b.isOpen now).1 = false ∧
       (b.isOpen now).2.state = .HALF_OPEN ∧
       1 ≤ (hedgedRequest cfg b now outcomes).2.2)
    ∧
    (∀ b : CircuitBreaker,
       b.recordSuccess.state = .CLOSED ∧ b.recordSuccess.failureCount = 0)
    ∧
    (∀ (b : CircuitBreaker) (now : ℚ),
       BreakerReachable b → b.state = .HALF_OPEN →
       (b.recordFailure now).state = .OPEN) := by
  refine ⟨?_, ?_, ?_, ?_, ?_, ?_⟩
  · intro t ms times h1 hlen
    exact recordFailures_state_reaches_open times _ rfl (by simp [CircuitBreaker.mkNew]; omega)
      (by simp [CircuitBreaker.mkNew]; omega)
  · intro t ms times hlen
    exact recordFailures_state_closed times _ rfl
      (by simp [CircuitBreaker.mkNew]; omega)
  · intro ρ cfg b now outcomes hst ht
    have hnot : ¬ now - b.lastFailureTime > b.timeoutMs := by linarith
    have hopen : b.isOpen now = (true, b) := by
      simp [CircuitBreaker.isOpen, hst, hnot]
    refine ⟨hopen, ?_⟩
    simp [hedgedRequest, hopen]
  · intro ρ cfg b now outcomes hst ht
    have hopen : b.isOpen now = (false, { b with state := .HALF_OPEN }) := by
      simp [CircuitBreaker.isOpen, hst, ht]
    refine ⟨by rw [hopen], by rw [hopen], ?_⟩
    simp only [hedgedRequest, hopen]
    exact hedgedLoop_attempts_pos outcomes now cfg.maxRetries 0 _
  · intro b
    exact ⟨rfl, rfl⟩
  · intro b now hb hst
    have hcnt := breakerReachable_count b hb (Or.inr hst)
    simp only [CircuitBreaker.recordFailure]
    have : b.failureCount + 1 ≥ b.threshold := by omega
    simp [this]

/-- Witness for `circuit_breaker_state_machine` with threshold 2 and
timeout 10: two failures open the breaker; one failure leaves it closed;
at time 5 (elapsed 3 < 10) a call is rejected with zero attempts; at
time 20 (elapsed 18 > 10) the check half-opens; a failure in that
half-open state reopens. -/
theorem circuit_breaker_state_machine_witness :
    ((recordFailures (CircuitBreaker.mkNew 2 10) [1, 2]).state = .OPEN)
    ∧ ((recordFailures (CircuitBreaker.mkNew 2 10) [1]).state = .CLOSED)
    ∧ (hedgedRequest {} (recordFailures (CircuitBreaker.mkNew 2 10) [1, 2]) 5
         (fun _ => (none : Option ℕ)) =
       (none, recordFailures (CircuitBreaker.mkNew 2 10) [1, 2], 0))
    ∧ (((recordFailures (CircuitBreaker.mkNew 2 10) [1, 2]).isOpen 20).2.state =
        .HALF_OPEN)
    ∧ ((((recordFailures (CircuitBreaker.mkNew 2 10) [1, 2]).isOpen 20).2.recordFailure 21).state =
        .OPEN) := by
  have h2 : (recordFailures (CircuitBreaker.mkNew 2 10) [1, 2]).state = .OPEN :=
    circuit_breaker_state_machine.1 2 10 [1, 2] (by norm_num) rfl
  have hlt : (5 : ℚ) -
      (recordFailures (CircuitBreaker.mkNew 2 10) [1, 2]).lastFailureTime <
      (recordFailures (CircuitBreaker.mkNew 2 10) [1, 2]).timeoutMs := by
    show (5 : ℚ) - 2 < 10
    norm_num
  have hgt : (20 : ℚ) -
      (recordFailures (CircuitBreaker.mkNew 2 10) [1, 2]).lastFailureTime >
      (recordFailures (CircuitBreaker.mkNew 2 10) [1, 2]).timeoutMs := by
    show (20 : ℚ) - 2 > 10
    norm_num
  have hhalf := (circuit_breaker_state_machine.2.2.2.1 ℕ {}
    (recordFailures (CircuitBreaker.mkNew 2 10) [1, 2]) 20 (fun _ => none)
    h2 hgt).2.1
  have hreach : BreakerReachable
      ((recordFailures (CircuitBreaker.mkNew 2 10) [1, 2]).isOpen 20).2 :=
    BreakerReachable.check 20
      (BreakerReachable.failure 2 (BreakerReachable.failure 1
        (BreakerReachable.mkNew 2 10)))
  exact ⟨h2,
    circuit_breaker_state_machine.2.1 2 10 [1] (by norm_num),
    (circuit_breaker_state_machine.2.2.1 ℕ {}
      (recordFailures (CircuitBreaker.mkNew 2 10) [1, 2]) 5 (fun _ => none)
      h2 hlt).2,
    hhalf,
    circuit_breaker_state_machine.2.2.2.2.2
      ((recordFailures (CircuitBreaker.mkNew 2 10) [1, 2]).isOpen 20).2 21
      hreach hhalf⟩

/-! ### Judge cascade

From `src/service/orchestrator/cascade/cascade.py` (`JudgeCascade`).
The registered judges (a Python dict name ↦ judge object) are modelled as an
association list `name ↦ Option JudgeResult`: the value is the outcome of
`judge.evaluate(query, results)` for the call under consideration (`none` =
the call raised, which `_try_judge` catches and turns into "try next").
Timing fields (`processing_time_ms`, timestamps) and the statistics /
performance-history bookkeeping of `_try_judge` / `_finalize_result` are
elided: they never influence which result `evaluate` returns.  `evaluate`
additionally returns the trace of judge names whose `evaluate` was actually
invoked. -/

structure JudgeResult where
  relevanceScore : ℚ
  confidence : ℚ
  judgeType : String
  deriving Repr, DecidableEq

structure CascadeConfig where
  highConfidenceThreshold : ℚ := 8/10
  lowConfidenceThreshold : ℚ := 3/10
  heuristicTimeBudget : ℕ := 100
  llmTimeBudget : ℕ := 2000
  minQualityForHeuristic : ℚ := 6/10
  minQualityForLLM : ℚ := 4/10
  enableHeuristicFirst : Bool := true
  enableLlmFallback : Bool := true
  enableConfidenceBasedRouting : Bool := true
  trackPerformance : Bool := true
  adaptationWindow : ℕ := 50
  deriving Repr, DecidableEq

/-- The fixed fallback value returned when every judge fails. -/
def defaultJudgeResult : JudgeResult := ⟨1/2, 0, "default"⟩

abbrev Judges := List (String × Option JudgeResult)

/-- `JudgeResult.is_high_confidence`. -/
def JudgeResult.isHighConfidence (r : JudgeResult) (threshold : ℚ) : Bool :=
  decide (r.confidence ≥ threshold)

/-- `JudgeResult.is_low_confidence` (note: `<=`, inclusive). -/
def JudgeResult.isLowConfidence (r : JudgeResult) (threshold : ℚ) : Bool :=
  decide (r.confidence ≤ threshold)

/-- `JudgeCascade._should_accept_result`. -/
def shouldAcceptResult (cfg : CascadeConfig) (r : JudgeResult) : Bool :=
  if !cfg.enableConfidenceBasedRouting then true
  else if r.isHighConfidence cfg.highConfidenceThreshold then true
  else if r.isLowConfidence cfg.lowConfidenceThreshold then false
  else decide (r.relevanceScore ≥ cfg.minQualityForHeuristic)

/-- The final `for judge_name, judge in self.judges.items()` fallback loop:
try each judge in registration order, returning the first result, together
with the names invoked. -/
def fallbackLoop : Judges → Option JudgeResult × List String
  | [] => (none, [])
  | (name, res) :: rest =>
    match res with
    | some r => (some r, [name])
    | none =>
      let tail := fallbackLoop rest
      (tail.1, name :: tail.2)

/-- Phase 1 of `evaluate`: the heuristic judge, when `enable_heuristic_first`
and registered; its result is kept only if `_should_accept_result` passes. -/
def heuristicPhase (cfg : CascadeConfig) (judges : Judges) :
    Option JudgeResult × List String :=
  if cfg.enableHeuristicFirst then
    match assocFind "heuristic" judges with
    | none => (none, [])
    | some res =>
      match res with
      | some r =>
        (if shouldAcceptResult cfg r then some r else none, ["heuristic"])
      | none => (none, ["heuristic"])
  else (none, [])

/-- Phase 2 of `evaluate`: the LLM judge, when `enable_llm_fallback` and
registered; its result is accepted unconditionally. -/
def llmPhase (cfg : CascadeConfig) (judges : Judges) :
    Option JudgeResult × List String :=
  if cfg.enableLlmFallback then
    match assocFind "llm" judges with
    | none => (none, [])
    | some res =>
      match res with
      | some r => (some r, ["llm"])
      | none => (none, ["llm"])
  else (none, [])

/-- `JudgeCascade.evaluate`, instrumented with the list of judge names whose
`evaluate` method was invoked (in order). -/
def evaluateTrace (cfg : CascadeConfig) (judges : Judges) :
    Except String JudgeResult × List String :=
  if judges.isEmpty then
    (Except.error "No judges available in cascade", [])
  else
    match heuristicPhase cfg judges with
    | (some r, tr) => (Except.ok r, tr)
    | (none, tr1) =>
      match llmPhase cfg judges with
      | (some r, tr2) => (Except.ok r, tr1 ++ tr2)
      | (none, tr2) =>
        match fallbackLoop judges with
        | (some r, tr3) => (Except.ok r, tr1 ++ tr2 ++ tr3)
        | (none, tr3) => (Except.ok defaultJudgeResult, tr1 ++ tr2 ++ tr3)

def evaluateResult (cfg : CascadeConfig) (judges : Judges) :
    Except String JudgeResult :=
  (evaluateTrace cfg judges).1

theorem fallbackLoop_none_iff (judges : Judges) :
    (fallbackLoop judges).1 = none ↔ ∀ p ∈ judges, p.2 = none := by
  induction judges with
  | nil => simp [fallbackLoop]
  | cons x rest ih =>
    obtain ⟨name, res⟩ := x
    cases res with
    | some r => simp [fallbackLoop]
    | none => simpa [fallbackLoop] using ih

theorem fallbackLoop_some_mem (judges : Judges) (r : JudgeResult)
    (h : (fallbackLoop judges).1 = some r) :
    ∃ name, (name, some r) ∈ judges := by
  induction judges with
  | nil => simp [fallbackLoop] at h
  | cons x rest ih =>
    obtain ⟨name, res⟩ := x
    cases res with
    | some r' =>
      simp only [fallbackLoop] at h
      cases h
      exact ⟨name, by simp⟩
    | none =>
      simp only [fallbackLoop] at h
      obtain ⟨nm, hnm⟩ := ih h
      exact ⟨nm, List.mem_cons_of_mem _ hnm⟩

theorem heuristicPhase_some (cfg : CascadeConfig) (judges : Judges)
    (r : JudgeResult) (h : (heuristicPhase cfg judges).1 = some r) :
    assocFind "heuristic" judges = some (some r) ∧
    shouldAcceptResult cfg r = true := by
  unfold heuristicPhase at h
  by_cases he : cfg.enableHeuristicFirst
  · simp only [if_pos he] at h
    cases hf : assocFind "heuristic" judges with
    | none => rw [hf] at h; simp at h
    | some res =>
      rw [hf] at h
      cases res with
      | some r' =>
        simp only at h
        by_cases ha : shouldAcceptResult cfg r'
        · simp only [ha, if_true] at h
          cases h
          exact ⟨rfl, ha⟩
        · simp [ha] at h
      | none => simp at h
  · simp [he] at h

theorem llmPhase_some (cfg : CascadeConfig) (judges : Judges)
    (r : JudgeResult) (h : (llmPhase cfg judges).1 = some r) :
    assocFind "llm" judges = some (some r) := by
  unfold llmPhase at h
  by_cases he : cfg.enableLlmFallback
  · simp only [if_pos he] at h
    cases hf : assocFind "llm" judges with
    | none => rw [hf] at h; simp at h
    | some res =>
      rw [hf] at h
      cases res with
      | some r' => simp only at h; cases h; rfl
      | none => simp at h
  · simp [he] at h

theorem heuristicPhase_none_of_all_fail (cfg : CascadeConfig)
    (judges : Judges) (hall : ∀ p ∈ judges, p.2 = none) :
    (heuristicPhase cfg judges).1 = none := by
  cases h : (heuristicPhase cfg judges).1 with
  | none => rfl
  | some r =>
    have := (heuristicPhase_some cfg judges r h).1
    have hmem := assocFind_mem this
    have := hall _ hmem
    simp at this

theorem llmPhase_none_of_all_fail (cfg : CascadeConfig)
    (judges : Judges) (hall : ∀ p ∈ judges, p.2 = none) :
    (llmPhase cfg judges).1 = none := by
  cases h : (llmPhase cfg judges).1 with
  | none => rfl
  | some r =>
    have := llmPhase_some cfg judges r h
    have hmem := assocFind_mem this
    have := hall _ hmem
    simp at this

/-- Master case split for a non-empty cascade: `evaluate` returns either a
result actually produced by a registered judge, or the default result, and
the latter only in the branch where every registered judge failed. -/
theorem evaluateTrace_master (cfg : CascadeConfig) (judges : Judges)
    (hne : judges ≠ []) :
    (∃ r, (evaluateTrace cfg judges).1 = Except.ok r ∧
          ∃ nm, (nm, some r) ∈ judges) ∨
    ((evaluateTrace cfg judges).1 = Except.ok defaultJudgeResult ∧
     ∀ p ∈ judges, p.2 = none) := by
  have hne' : judges.isEmpty = false := by
    cases judges with
    | nil => exact absurd rfl hne
    | cons a l => rfl
  unfold evaluateTrace
  rw [hne']
  simp only [Bool.false_eq_true, if_false]
  cases hp1 : heuristicPhase cfg judges with
  | mk o1 tr1 =>
    cases o1 with
    | some r =>
      left
      refine ⟨r, rfl, ?_⟩
      have := heuristicPhase_some cfg judges r (by rw [hp1])
      exact ⟨"heuristic", assocFind_mem this.1⟩
    | none =>
      cases hp2 : llmPhase cfg judges with
      | mk o2 tr2 =>
        cases o2 with
        | some r =>
          left
          refine ⟨r, rfl, ?_⟩
          have := llmPhase_some cfg judges r (by rw [hp2])
          exact ⟨"llm", assocFind_mem this⟩
        | none =>
          cases hfb : fallbackLoop judges with
          | mk o3 tr3 =>
            cases o3 with
            | some r =>
              left
              refine ⟨r, rfl, ?_⟩
              obtain ⟨nm, hnm⟩ := fallbackLoop_some_mem judges r (by rw [hfb])
              exact ⟨nm, hnm⟩
            | none =>
              right
              refine ⟨rfl, ?_⟩
              exact (fallbackLoop_none_iff judges).mp (by rw [hfb])

/-- C3: `evaluate` raises exactly when no judge is registered; with at least
one registered judge it always returns a result (no single judge's failure
propagates); and — provided no registered judge itself produces a result
labelled "default", as none of the repository's judges do — the fixed
default result (relevance 0.5, confidence 0, type "default") is returned
precisely when every registered judge's evaluate call fails. -/
theorem cascade_empty_error_and_default_iff_all_fail :
    (∀ cfg : CascadeConfig,
       evaluateResult cfg [] = Except.error "No judges available in cascade")
    ∧
    (∀ (cfg : CascadeConfig) (judges : Judges), judges ≠ [] →
       ∃ r, evaluateResult cfg judges = Except.ok r)
    ∧
    (∀ (cfg : CascadeConfig) (judges : Judges),
       (∀ p ∈ judges, ∀ r : JudgeResult, p.2 = some r →
          r.judgeType ≠ "default") →
       (evaluateResult cfg judges = Except.ok defaultJudgeResult ↔
        (judges ≠ [] ∧ ∀ p ∈ judges, p.2 = none))) := by
  refine ⟨fun cfg => rfl, ?_, ?_⟩
  · intro cfg judges hne
    rcases evaluateTrace_master cfg judges hne with ⟨r, hok, _⟩ | ⟨hok, _⟩
    · exact ⟨r, hok⟩
    · exact ⟨defaultJudgeResult, hok⟩
  · intro cfg judges hnodef
    constructor
    · intro hok
      cases hjudges : judges with
      | nil =>
        rw [hjudges] at hok
        simp [evaluateResult, evaluateTrace] at hok
      | cons a l =>
        rw [← hjudges]
        have hne : judges ≠ [] := by rw [hjudges]; simp
        rcases evaluateTrace_master cfg judges hne with
          ⟨r, hok', nm, hmem⟩ | ⟨hok', hall⟩
        · exfalso
          rw [evaluateResult] at hok
          rw [hok] at hok'
          have hr : defaultJudgeResult = r := by
            injection hok'
          have := hnodef (nm, some r) hmem r rfl
          rw [← hr] at this
          exact this rfl
        · exact ⟨hne, hall⟩
    · rintro ⟨hne, hall⟩
      rcases evaluateTrace_master cfg judges hne with
        ⟨r, hok', nm, hmem⟩ | ⟨hok', hall'⟩
      · exfalso
        have := hall (nm, some r) hmem
        simp at this
      · exact hok'

/-- Witness for `cascade_empty_error_and_default_iff_all_fail`: with the
default config, an empty cascade errors; a cascade whose only judge fails
still returns a result, namely the default one. -/
theorem cascade_empty_error_and_default_witness :
    (evaluateResult {} [] = Except.error "No judges available in cascade") ∧
    (∃ r, evaluateResult {} [("heuristic", none), ("llm", none)] =
       Except.ok r) ∧
    (evaluateResult {} [("heuristic", none), ("llm", none)] =
       Except.ok defaultJudgeResult) := by
  refine ⟨cascade_empty_error_and_default_iff_all_fail.1 {}, ?_, ?_⟩
  · exact cascade_empty_error_and_default_iff_all_fail.2.1 {}
      [("heuristic", none), ("llm", none)] (by simp)
  · exact (cascade_empty_error_and_default_iff_all_fail.2.2 {}
      [("heuristic", none), ("llm", none)]
      (by
        intro p hp r hr
        simp only [List.mem_cons, List.not_mem_nil, or_false] at hp
        rcases hp with rfl | rfl <;> simp at hr)).mpr
      ⟨by simp,
       by
        intro p hp
        simp only [List.mem_cons, List.not_mem_nil, or_false] at hp
        rcases hp with rfl | rfl <;> rfl⟩

/-- C7: with confidence-based routing enabled, a heuristic result is
accepted exactly when its confidence reaches the high threshold, or its
confidence lies strictly between the low and high thresholds and its
relevance reaches the quality floor; and whenever the heuristic judge is
enabled, registered, and its result accepted, `evaluate` returns that
result having invoked only the heuristic judge — in particular the LLM
judge's evaluate is never invoked. -/
theorem cascade_acceptance_and_heuristic_short_circuit :
    (∀ (cfg : CascadeConfig) (r : JudgeResult),
       cfg.enableConfidenceBasedRouting = true →
       (shouldAcceptResult cfg r = true ↔
        (r.confidence ≥ cfg.highConfidenceThreshold ∨
         (cfg.lowConfidenceThreshold < r.confidence ∧
          r.confidence < cfg.highConfidenceThreshold ∧
          r.relevanceScore ≥ cfg.minQualityForHeuristic))))
    ∧
    (∀ (cfg : CascadeConfig) (judges : Judges) (r : JudgeResult),
       cfg.enableHeuristicFirst = true →
       assocFind "heuristic" judges = some (some r) →
       shouldAcceptResult cfg r = true →
       (evaluateTrace cfg judges = (Except.ok r, ["heuristic"]) ∧
        "llm" ∉ (evaluateTrace cfg judges).2)) := by
  constructor
  · intro cfg r hrout
    by_cases h1 : r.confidence ≥ cfg.highConfidenceThreshold
    · simp [shouldAcceptResult, JudgeResult.isHighConfidence, hrout, h1]
    · by_cases h2 : r.confidence ≤ cfg.lowConfidenceThreshold
      · have hne : ¬ cfg.lowConfidenceThreshold < r.confidence := not_lt.mpr h2
        simp [shouldAcceptResult, JudgeResult.isHighConfidence,
          JudgeResult.isLowConfidence, hrout, h1, h2, hne]
      · have hlt : cfg.lowConfidenceThreshold < r.confidence := not_le.mp h2
        have hlt2 : r.confidence < cfg.highConfidenceThreshold := not_le.mp h1
        simp [shouldAcceptResult, JudgeResult.isHighConfidence,
          JudgeResult.isLowConfidence, hrout, h1, h2, hlt, hlt2]
  · intro cfg judges r he hf ha
    have hne' : judges.isEmpty = false := by
      cases judges with
      | nil => simp [assocFind] at hf
      | cons a l => rfl
    have hp1 : heuristicPhase cfg judges = (some r, ["heuristic"]) := by
      simp only [heuristicPhase, he, if_true, hf, ha]
    have heval : evaluateTrace cfg judges = (Except.ok r, ["heuristic"]) := by
      unfold evaluateTrace
      rw [hne']
      simp only [Bool.false_eq_true, if_false, hp1]
    exact ⟨heval, by rw [heval]; simp⟩

/-- Witness for `cascade_acceptance_and_heuristic_short_circuit`: under the
default config (high threshold 0.8), a heuristic result with confidence 0.9
is accepted, `evaluate` returns it, and the registered LLM judge is never
invoked. -/
theorem cascade_acceptance_witness :
    (shouldAcceptResult {} ⟨7/10, 9/10, "heuristic"⟩ = true) ∧
    (evaluateTrace {} [("heuristic", some ⟨7/10, 9/10, "heuristic"⟩),
        ("llm", some ⟨1, 1, "llm"⟩)] =
      (Except.ok ⟨7/10, 9/10, "heuristic"⟩, ["heuristic"])) ∧
    ("llm" ∉ (evaluateTrace {} [("heuristic", some ⟨7/10, 9/10, "heuristic"⟩),
        ("llm", some ⟨1, 1, "llm"⟩)]).2) := by
  have hacc : shouldAcceptResult {} ⟨7/10, 9/10, "heuristic"⟩ = true :=
    (cascade_acceptance_and_heuristic_short_circuit.1 {}
      ⟨7/10, 9/10, "heuristic"⟩ rfl).mpr
      (Or.inl (by show (9/10 : ℚ) ≥ 8/10; norm_num))
  have h2 := cascade_acceptance_and_heuristic_short_circuit.2 {}
    [("heuristic", some ⟨7/10, 9/10, "heuristic"⟩), ("llm", some ⟨1, 1, "llm"⟩)]
    ⟨7/10, 9/10, "heuristic"⟩ rfl rfl hacc
  exact ⟨hacc, h2.1, h2.2⟩

/-! ### Adaptive budget manager

From `src/service/orchestrator/adaptive/budget.py` (`BudgetManager`).
`adapt_tier` threads `now` for the history timestamp and the decay cutoff.
The EMA statistics (`_update_tier_stats`) and history decay (`_apply_decay`)
are carried faithfully; they do not influence the tier transition, which
depends only on the current tier, config, and the observed (quality, time). -/

inductive BudgetTier
  | FAST
  | BALANCED
  | THOROUGH
  deriving Repr, DecidableEq

structure BudgetConfig where
  fastTimeBudget : ℚ := 2000
  balancedTimeBudget : ℚ := 5000
  thoroughTimeBudget : ℚ := 10000
  minQualityThreshold : ℚ := 7/10
  qualityImprovementThreshold : ℚ := 1/10
  adaptationWindow : ℕ := 10
  qualityDecayFactor : ℚ := 9/10
  timeDecayFactor : ℚ := 95/100
  upgradeQualityThreshold : ℚ := 8/10
  downgradeTimeThreshold : ℚ := 9/10
  deriving Repr, DecidableEq

structure TierStats where
  count : ℕ
  avgTime : ℚ
  avgQuality : ℚ
  deriving Repr, DecidableEq

structure PerfEntry where
  tier : BudgetTier
  quality : ℚ
  timeMs : ℚ
  timestamp : ℚ
  deriving Repr, DecidableEq

structure BudgetManager where
  config : BudgetConfig
  currentTier : BudgetTier
  performanceHistory : List PerfEntry
  statsFast : TierStats
  statsBalanced : TierStats
  statsThorough : TierStats
  deriving Repr, DecidableEq

def BudgetManager.getTimeBudget (m : BudgetManager) (tier : BudgetTier) : ℚ :=
  match tier with
  | .FAST => m.config.fastTimeBudget
  | .BALANCED => m.config.balancedTimeBudget
  | .THOROUGH => m.config.thoroughTimeBudget

def BudgetManager.getQualityTarget (m : BudgetManager) (tier : BudgetTier) : ℚ :=
  match tier with
  | .FAST => m.config.minQualityThreshold
  | .BALANCED => m.config.minQualityThreshold + 1/10
  | .THOROUGH => m.config.minQualityThreshold + 2/10

/-- `should_upgrade_tier`: never from THOROUGH; otherwise quality at or above
the upgrade threshold and time strictly under half the current tier's budget. -/
def BudgetManager.shouldUpgradeTier (m : BudgetManager) (quality time : ℚ) :
    Bool :=
  if m.currentTier = .THOROUGH then false
  else decide (quality ≥ m.config.upgradeQualityThreshold ∧
               time < m.getTimeBudget m.currentTier * (1/2))

/-- `should_downgrade_tier`: never from FAST; otherwise time strictly over
the configured fraction (default 0.9) of the current tier's budget. -/
def BudgetManager.shouldDowngradeTier (m : BudgetManager) (quality time : ℚ) :
    Bool :=
  if m.currentTier = .FAST then false
  else decide (time > m.getTimeBudget m.currentTier *
                 m.config.downgradeTimeThreshold)

/-- `_update_tier_stats`: running averages with learning rate 0.1 (plain
assignment on the first observation). -/
def updateStats (s : TierStats) (quality time : ℚ) : TierStats :=
  let cnt := s.count + 1
  if cnt = 1 then ⟨cnt, time, quality⟩
  else ⟨cnt, (1 - 1/10) * s.avgTime + (1/10) * time,
        (1 - 1/10) * s.avgQuality + (1/10) * quality⟩

def BudgetManager.updateTierStats (m : BudgetManager) (tier : BudgetTier)
    (quality time : ℚ) : BudgetManager :=
  match tier with
  | .FAST => { m with statsFast := updateStats m.statsFast quality time }
  | .BALANCED =>
      { m with statsBalanced := updateStats m.statsBalanced quality time }
  | .THOROUGH =>
      { m with statsThorough := updateStats m.statsThorough quality time }

/-- `_apply_decay`: drop history entries older than the cutoff. -/
def BudgetManager.applyDecay (m : BudgetManager) (now : ℚ) : BudgetManager :=
  let cutoff := now - (m.config.adaptationWindow : ℚ) * 60
  { m with performanceHistory :=
      m.performanceHistory.filter (fun e => decide (e.timestamp > cutoff)) }

/-- `adapt_tier`: record, update stats, decay, then move at most one step. -/
def BudgetManager.adaptTier (m : BudgetManager) (now quality time : ℚ) :
    BudgetTier × BudgetManager :=
  let m1 := { m with performanceHistory :=
      m.performanceHistory ++ [(⟨m.currentTier, quality, time, now⟩ : PerfEntry)] }
  let m2 := m1.updateTierStats m1.currentTier quality time
  let m3 := m2.applyDecay now
  let newTier :=
    if m3.shouldUpgradeTier quality time then
      match m3.currentTier with
      | .FAST => .BALANCED
      | .BALANCED => .THOROUGH
      | .THOROUGH => .THOROUGH
    else if m3.shouldDowngradeTier quality time then
      match m3.currentTier with
      | .THOROUGH => .BALANCED
      | .BALANCED => .FAST
      | .FAST => .FAST
    else m3.currentTier
  (newTier, { m3 with currentTier := newTier })

/-- Ordinal position of a tier in fast < balanced < thorough. -/
def tierIdx : BudgetTier → ℕ
  | .FAST => 0
  | .BALANCED => 1
  | .THOROUGH => 2

def tierSucc : BudgetTier → BudgetTier
  | .FAST => .BALANCED
  | .BALANCED => .THOROUGH
  | .THOROUGH => .THOROUGH

def tierPred : BudgetTier → BudgetTier
  | .THOROUGH => .BALANCED
  | .BALANCED => .FAST
  | .FAST => .FAST

theorem adaptTier_currentTier_invariant (m : BudgetManager)
    (now quality time : ℚ) :
    ((({ m with performanceHistory := m.performanceHistory ++
        [(⟨m.currentTier, quality, time, now⟩ : PerfEntry)] } : BudgetManager).updateTierStats
        m.currentTier quality time).applyDecay now).currentTier =
      m.currentTier := by
  cases h : m.currentTier <;>
    simp [BudgetManager.updateTierStats, BudgetManager.applyDecay, h]

theorem adaptTier_config_invariant (m : BudgetManager)
    (now quality time : ℚ) :
    ((({ m with performanceHistory := m.performanceHistory ++
        [(⟨m.currentTier, quality, time, now⟩ : PerfEntry)] } : BudgetManager).updateTierStats
        m.currentTier quality time).applyDecay now).config = m.config := by
  cases h : m.currentTier <;>
    simp [BudgetManager.updateTierStats, BudgetManager.applyDecay]

theorem shouldUpgradeTier_congr (m m' : BudgetManager) (q t : ℚ)
    (h1 : m.currentTier = m'.currentTier) (h2 : m.config = m'.config) :
    m.shouldUpgradeTier q t = m'.shouldUpgradeTier q t := by
  unfold BudgetManager.shouldUpgradeTier BudgetManager.getTimeBudget
  rw [h1, h2]

theorem shouldDowngradeTier_congr (m m' : BudgetManager) (q t : ℚ)
    (h1 : m.currentTier = m'.currentTier) (h2 : m.config = m'.config) :
    m.shouldDowngradeTier q t = m'.shouldDowngradeTier q t := by
  unfold BudgetManager.shouldDowngradeTier BudgetManager.getTimeBudget
  rw [h1, h2]

/-- The tier returned by `adapt_tier` depends only on the transition rule
applied to the pre-call tier: the history/statistics bookkeeping preceding
it does not alter the decision. -/
theorem adaptTier_fst (m : BudgetManager) (now q t : ℚ) :
    (m.adaptTier now q t).1 =
      (if m.shouldUpgradeTier q t then tierSucc m.currentTier
       else if m.shouldDowngradeTier q t then tierPred m.currentTier
       else m.currentTier) := by
  have hc := adaptTier_currentTier_invariant m now q t
  have hcf := adaptTier_config_invariant m now q t
  simp only [BudgetManager.adaptTier]
  rw [shouldUpgradeTier_congr _ m q t hc hcf,
      shouldDowngradeTier_congr _ m q t hc hcf, hc]
  by_cases hup : m.shouldUpgradeTier q t
  · cases hmt : m.currentTier <;> simp [hup, hmt, tierSucc]
  · by_cases hdn : m.shouldDowngradeTier q t
    · cases hmt : m.currentTier <;> simp [hup, hdn, hmt, tierPred]
    · simp [hup, hdn]

/-- C8: one `adapt_tier` call moves the budget tier by at most one step in
fast < balanced < thorough: it upgrades one step when quality reaches the
upgrade threshold and latency is under 50% of the tier's budget, downgrades
one step when (absent an upgrade) latency exceeds the configured fraction
(default 90%) of the budget, and otherwise holds; in particular a single
call starting from fast never reaches thorough. -/
theorem budget_adapt_one_step :
    (∀ (m : BudgetManager) (now q t : ℚ),
       (m.adaptTier now q t).1 = m.currentTier ∨
       (m.adaptTier now q t).1 = tierSucc m.currentTier ∨
       (m.adaptTier now q t).1 = tierPred m.currentTier)
    ∧
    (∀ (m : BudgetManager) (now q t : ℚ),
       m.currentTier ≠ .THOROUGH →
       q ≥ m.config.upgradeQualityThreshold →
       t < m.getTimeBudget m.currentTier * (1/2) →
       (m.adaptTier now q t).1 = tierSucc m.currentTier)
    ∧
    (∀ (m : BudgetManager) (now q t : ℚ),
       m.currentTier ≠ .FAST →
       m.shouldUpgradeTier q t = false →
       t > m.getTimeBudget m.currentTier * m.config.downgradeTimeThreshold →
       (m.adaptTier now q t).1 = tierPred m.currentTier)
    ∧
    (∀ (m : BudgetManager) (now q t : ℚ),
       m.shouldUpgradeTier q t = false →
       m.shouldDowngradeTier q t = false →
       (m.adaptTier now q t).1 = m.currentTier)
    ∧
    (∀ (m : BudgetManager) (now q t : ℚ),
       m.currentTier = .FAST → (m.adaptTier now q t).1 ≠ .THOROUGH) := by
  refine ⟨?_, ?_, ?_, ?_, ?_⟩
  · intro m now q t
    rw [adaptTier_fst]
    split_ifs with h1 h2
    · exact Or.inr (Or.inl rfl)
    · exact Or.inr (Or.inr rfl)
    · exact Or.inl rfl
  · intro m now q t hne hq ht
    have hup : m.shouldUpgradeTier q t = true := by
      unfold BudgetManager.shouldUpgradeTier
      rw [if_neg hne]
      exact decide_eq_true ⟨hq, ht⟩
    rw [adaptTier_fst, hup]
    simp
  · intro m now q t hne hup ht
    have hdn : m.shouldDowngradeTier q t = true := by
      unfold BudgetManager.shouldDowngradeTier
      rw [if_neg hne]
      exact decide_eq_true ht
    rw [adaptTier_fst, hup, hdn]
    simp
  · intro m now q t hup hdn
    rw [adaptTier_fst, hup, hdn]
    simp
  · intro m now q t hfast
    rw [adaptTier_fst, hfast]
    split_ifs <;> simp [tierSucc, tierPred]

/-- Witness for `budget_adapt_one_step` with the default config: from fast,
a strong observation (quality 0.9, 100 ms) upgrades to balanced only; a
second strong observation then reaches thorough; from balanced, a slow
observation (4900 ms > 90% of 5000) downgrades to fast; a mediocre fast
observation holds. -/
theorem budget_adapt_one_step_witness :
    (((⟨{}, .FAST, [], ⟨0, 0, 0⟩, ⟨0, 0, 0⟩, ⟨0, 0, 0⟩⟩ : BudgetManager).adaptTier
        0 (9/10) 100).1 = .BALANCED) ∧
    (((((⟨{}, .FAST, [], ⟨0, 0, 0⟩, ⟨0, 0, 0⟩, ⟨0, 0, 0⟩⟩ : BudgetManager).adaptTier
        0 (9/10) 100).2).adaptTier 1 (9/10) 100).1 = .THOROUGH) ∧
    (((⟨{}, .BALANCED, [], ⟨0, 0, 0⟩, ⟨0, 0, 0⟩, ⟨0, 0, 0⟩⟩ : BudgetManager).adaptTier
        0 0 4900).1 = .FAST) ∧
    (((⟨{}, .FAST, [], ⟨0, 0, 0⟩, ⟨0, 0, 0⟩, ⟨0, 0, 0⟩⟩ : BudgetManager).adaptTier
        0 0 100).1 = .FAST) ∧
    (((⟨{}, .FAST, [], ⟨0, 0, 0⟩, ⟨0, 0, 0⟩, ⟨0, 0, 0⟩⟩ : BudgetManager).adaptTier
        0 (9/10) 100).1 ≠ .THOROUGH) := by
  have h1 : ((⟨{}, .FAST, [], ⟨0, 0, 0⟩, ⟨0, 0, 0⟩, ⟨0, 0, 0⟩⟩ : BudgetManager).adaptTier
      0 (9/10) 100).1 = .BALANCED :=
    budget_adapt_one_step.2.1 _ 0 (9/10) 100 (by decide)
      (by show (9/10 : ℚ) ≥ 8/10; norm_num)
      (by show (100 : ℚ) < 2000 * (1/2); norm_num)
  have hcur : (((⟨{}, .FAST, [], ⟨0, 0, 0⟩, ⟨0, 0, 0⟩, ⟨0, 0, 0⟩⟩ : BudgetManager).adaptTier
      0 (9/10) 100).2).currentTier = .BALANCED := by
    rw [show (((⟨{}, .FAST, [], ⟨0, 0, 0⟩, ⟨0, 0, 0⟩, ⟨0, 0, 0⟩⟩ : BudgetManager).adaptTier
      0 (9/10) 100).2).currentTier =
      ((⟨{}, .FAST, [], ⟨0, 0, 0⟩, ⟨0, 0, 0⟩, ⟨0, 0, 0⟩⟩ : BudgetManager).adaptTier
      0 (9/10) 100).1 from rfl]
    exact h1
  have h2 := budget_adapt_one_step.2.1
    (((⟨{}, .FAST, [], ⟨0, 0, 0⟩, ⟨0, 0, 0⟩, ⟨0, 0, 0⟩⟩ : BudgetManager).adaptTier
      0 (9/10) 100).2) 1 (9/10) 100
    (by rw [hcur]; decide)
    (by show (9/10 : ℚ) ≥ 8/10; norm_num)
    (by rw [hcur]; show (100 : ℚ) < 5000 * (1/2); norm_num)
  rw [hcur] at h2
  have h3 : ((⟨{}, .BALANCED, [], ⟨0, 0, 0⟩, ⟨0, 0, 0⟩, ⟨0, 0, 0⟩⟩ : BudgetManager).adaptTier
      0 0 4900).1 = .FAST :=
    budget_adapt_one_step.2.2.1 _ 0 0 4900 (by decide)
      (by
        simp only [BudgetManager.shouldUpgradeTier, BudgetManager.getTimeBudget]
        norm_num)
      (by show (4900 : ℚ) > 5000 * (9/10); norm_num)
  have h4 : ((⟨{}, .FAST, [], ⟨0, 0, 0⟩, ⟨0, 0, 0⟩, ⟨0, 0, 0⟩⟩ : BudgetManager).adaptTier
      0 0 100).1 = .FAST :=
    budget_adapt_one_step.2.2.2.1 _ 0 0 100
      (by
        simp only [BudgetManager.shouldUpgradeTier, BudgetManager.getTimeBudget]
        norm_num)
      (by simp [BudgetManager.shouldDowngradeTier])
  exact ⟨h1, h2, h3, h4,
    budget_adapt_one_step.2.2.2.2 _ 0 (9/10) 100 rfl⟩

/-! ### Adaptive orchestrator retry rule

From `src/service/orchestrator/adaptive/adaptive.py`
(`AdaptiveOrchestrator.should_retry_with_higher_tier`, `get_retry_config`)
and `src/service/orchestrator/adaptive/tiering.py`
(`RetrievalTier`, `TierManager.get_tier_config`).  The `config_used` dict is
modelled by the fields the two functions consume/update; the feature-name
lists and pruning dicts of `get_tier_config` are elided (never read by the
retry logic). -/

inductive RetrievalTier
  | BASIC
  | ENHANCED
  | PREMIUM
  deriving Repr, DecidableEq

structure TierConfigData where
  basicMaxResults : ℕ := 20
  enhancedMaxResults : ℕ := 50
  premiumMaxResults : ℕ := 100
  basicQualityThreshold : ℚ := 6/10
  enhancedQualityThreshold : ℚ := 8/10
  premiumQualityThreshold : ℚ := 9/10
  deriving Repr, DecidableEq

structure TierSettings where
  maxResults : ℕ
  qualityThreshold : ℚ
  enableHedging : Bool
  enableCaching : Bool
  enableFiltering : Bool
  enableStreaming : Bool
  rerankTopk : ℕ
  deriving Repr, DecidableEq

/-- `TierManager.get_tier_config`. -/
def getTierConfig (cfg : TierConfigData) : RetrievalTier → TierSettings
  | .BASIC =>
      ⟨cfg.basicMaxResults, cfg.basicQualityThreshold,
       false, false, false, false, 10⟩
  | .ENHANCED =>
      ⟨cfg.enhancedMaxResults, cfg.enhancedQualityThreshold,
       false, true, true, false, 20⟩
  | .PREMIUM =>
      ⟨cfg.premiumMaxResults, cfg.premiumQualityThreshold,
       true, true, true, true, 50⟩

/-- The fields of the `config_used` dict read and written by the retry
logic. -/
structure UsedConfig where
  tier : RetrievalTier
  qualityThreshold : ℚ
  timeBudgetMs : ℚ
  maxResults : ℕ
  rerankTopk : ℕ
  enableHedging : Bool
  enableCaching : Bool
  enableFiltering : Bool
  enableStreaming : Bool
  isRetry : Bool
  deriving Repr, DecidableEq

/-- `AdaptiveOrchestrator.should_retry_with_higher_tier`. -/
def shouldRetryWithHigherTier (adaptationEnabled : Bool) (quality timeMs : ℚ)
    (cfg : UsedConfig) : Bool :=
  if !adaptationEnabled then false
  else if cfg.tier = .PREMIUM then false
  else if quality ≥ cfg.qualityThreshold then false
  else if timeMs ≥ cfg.timeBudgetMs * (8/10) then false
  else decide (quality < cfg.qualityThreshold * (8/10))

/-- The tier-upgrade step of `get_retry_config`: basic→enhanced,
enhanced→premium, premium→premium. -/
def upgradeRetrievalTier : RetrievalTier → RetrievalTier
  | .BASIC => .ENHANCED
  | .ENHANCED => .PREMIUM
  | .PREMIUM => .PREMIUM

/-- `AdaptiveOrchestrator.get_retry_config`: copy the original config,
set the upgraded tier, pull the new tier's settings, mark it a retry. -/
def getRetryConfig (tcfg : TierConfigData) (original : UsedConfig) :
    UsedConfig :=
  let newTier := upgradeRetrievalTier original.tier
  let ts := getTierConfig tcfg newTier
  { original with
      tier := newTier,
      maxResults := ts.maxResults,
      enableHedging := ts.enableHedging,
      enableCaching := ts.enableCaching,
      enableFiltering := ts.enableFiltering,
      enableStreaming := ts.enableStreaming,
      rerankTopk := ts.rerankTopk,
      qualityThreshold := ts.qualityThreshold,
      isRetry := true }

/-- Ordinal position of a retrieval tier in basic < enhanced < premium. -/
def rTierIdx : RetrievalTier → ℕ
  | .BASIC => 0
  | .ENHANCED => 1
  | .PREMIUM => 2

/-- C9: with adaptation enabled, `should_retry_with_higher_tier` is true
exactly when the tier used is not premium, quality missed the tier's
threshold, elapsed time is under 80% of the budget, and quality is below
80% of the threshold (so it is false whenever the tier is premium, quality
met the threshold, or elapsed ≥ 80% of budget); with adaptation disabled it
is always false; and the retry config's tier is exactly one step above the
tier used, premium mapping to premium. -/
theorem retry_rule_and_one_tier_up :
    (∀ (quality timeMs : ℚ) (cfg : UsedConfig),
       shouldRetryWithHigherTier true quality timeMs cfg = true ↔
       (cfg.tier ≠ .PREMIUM ∧
        quality < cfg.qualityThreshold ∧
        timeMs < cfg.timeBudgetMs * (8/10) ∧
        quality < cfg.qualityThreshold * (8/10)))
    ∧
    (∀ (quality timeMs : ℚ) (cfg : UsedConfig),
       shouldRetryWithHigherTier false quality timeMs cfg = false)
    ∧
    (∀ (tcfg : TierConfigData) (original : UsedConfig),
       (getRetryConfig tcfg original).tier =
         upgradeRetrievalTier original.tier)
    ∧
    (∀ tr : RetrievalTier,
       rTierIdx (upgradeRetrievalTier tr) = min (rTierIdx tr + 1) 2)
    ∧
    (upgradeRetrievalTier .BASIC = .ENHANCED ∧
     upgradeRetrievalTier .ENHANCED = .PREMIUM ∧
     upgradeRetrievalTier .PREMIUM = .PREMIUM) := by
  refine ⟨?_, ?_, ?_, ?_, rfl, rfl, rfl⟩
  · intro quality timeMs cfg
    unfold shouldRetryWithHigherTier
    by_cases h1 : cfg.tier = .PREMIUM
    · simp [h1]
    · by_cases h2 : quality ≥ cfg.qualityThreshold
      · have : ¬ quality < cfg.qualityThreshold := not_lt.mpr h2
        simp [h1, h2, this]
      · by_cases h3 : timeMs ≥ cfg.timeBudgetMs * (8/10)
        · have : ¬ timeMs < cfg.timeBudgetMs * (8/10) := not_lt.mpr h3
          simp [h1, h2, h3, this]
        · simp [h1, h2, h3, not_le.mp h2, not_le.mp h3]
  · intro quality timeMs cfg
    rfl
  · intro tcfg original
    cases h : original.tier <;>
      simp [getRetryConfig, upgradeRetrievalTier, getTierConfig, h]
  · intro tr
    cases tr <;> rfl

/-! ### Cache manager and key derivation

From `src/service/orchestrator/cache/manager.py` (`CacheManager`).
`_make_key` joins the prefix and the stringified arguments with ":" and
hashes the joined string with MD5; the hash is an opaque parameter
`h : String → String` of the model (any function of the joined string —
equal joined strings always give equal keys).  The serializer is the
identity (values are strings), matching the disk-tier model. -/

/-- The string `f"{prefix}:{':'.join(str(arg) for arg in args)}"` that
`_make_key` hashes. -/
def makeKeyData (pre : String) (args : List String) : String :=
  pre ++ ":" ++ String.intercalate ":" args

structure CacheManagerConfig where
  memorySize : ℕ := 1000
  diskSizeMb : ℕ := 100
  ttlSeconds : ℚ := 3600
  deriving Repr, DecidableEq

structure CacheManager where
  config : CacheManagerConfig
  hash : String → String
  memoryCache : LRUCache String
  diskCache : DiskCache

def CacheManager.makeKey (m : CacheManager) (pre : String)
    (args : List String) : String :=
  m.hash (makeKeyData pre args)

/-- `CacheManager.put`: write to both tiers under the derived key; the
Python `ttl = ttl or self.config.ttl_seconds` treats a zero/absent ttl as
the configured default. -/
def CacheManager.put (m : CacheManager) (now : ℚ) (pre : String)
    (v : String) (args : List String) (ttl : Option ℚ) : CacheManager :=
  let key := m.makeKey pre args
  let t := match ttl with
           | some t => if t = 0 then m.config.ttlSeconds else t
           | none => m.config.ttlSeconds
  { m with memoryCache := m.memoryCache.put now key v (some t),
           diskCache := m.diskCache.put now key v (some t) }

/-- `CacheManager.get`: memory tier first; on a disk hit the value is
promoted into the memory tier with no TTL. -/
def CacheManager.get (m : CacheManager) (now : ℚ) (pre : String)
    (args : List String) : Option String × CacheManager :=
  let key := m.makeKey pre args
  let memRes := m.memoryCache.get now key
  match memRes.1 with
  | some v => (some v, { m with memoryCache := memRes.2 })
  | none =>
    let diskRes := m.diskCache.get now key
    match diskRes.1 with
    | some v =>
      (some v, { m with memoryCache := memRes.2.put now key v none,
                        diskCache := diskRes.2 })
    | none => (none, { m with memoryCache := memRes.2,
                              diskCache := diskRes.2 })

/-- C10: key derivation is not injective over part lists — the parts are
joined with ":" before hashing, so the single part `a ++ ":" ++ b` and the
two parts `a`, `b` produce the same joined string under any prefix, hence
the same MD5 key; consequently a put under one list is visible to a get
under the other (shown on the memory tier with capacity ≥ 1 and an
unexpired entry). -/
theorem cache_key_collision :
    (∀ (pre a b : String),
       makeKeyData pre [a ++ ":" ++ b] = makeKeyData pre [a, b])
    ∧
    (([("a" ++ ":" ++ "b")] : List String) ≠ ["a", "b"])
    ∧
    (∀ (m : CacheManager) (now now' : ℚ) (pre a b v : String) (t : ℚ),
       1 ≤ m.memoryCache.maxsize → 0 < t → now' < now + t →
       ((m.put now pre v [a ++ ":" ++ b] (some t)).get now' pre [a, b]).1 =
         some v) := by
  refine ⟨?_, by decide, ?_⟩
  · intro pre a b
    simp [makeKeyData, String.intercalate, String.intercalate.go]
  · intro m now now' pre a b v t hcap ht hnow
    have hkey : makeKeyData pre [a ++ ":" ++ b] = makeKeyData pre [a, b] := by
      simp [makeKeyData, String.intercalate, String.intercalate.go]
    have htne : ¬ t = 0 := by linarith
    have hput : (m.put now pre v [a ++ ":" ++ b] (some t)).memoryCache =
        m.memoryCache.put now (m.hash (makeKeyData pre [a, b])) v (some t) := by
      simp only [CacheManager.put, CacheManager.makeKey, hkey, if_neg htne]
    have hhash : (m.put now pre v [a ++ ":" ++ b] (some t)).hash = m.hash := rfl
    have hfind := LRUCache.put_find_of_pos m.memoryCache now
      (m.hash (makeKeyData pre [a, b])) v (some t) hcap
    have hget : ((m.put now pre v [a ++ ":" ++ b] (some t)).memoryCache.get now'
        (m.hash (makeKeyData pre [a, b]))).1 = some v := by
      rw [hput]
      simp only [LRUCache.get, hfind, Option.map_some']
      rw [if_pos hnow]
    unfold CacheManager.get
    simp only [CacheManager.makeKey, hhash]
    rw [show ((m.put now pre v [a ++ ":" ++ b] (some t)).memoryCache.get now'
        (m.hash (makeKeyData pre [a, b]))) =
        (some v, ((m.put now pre v [a ++ ":" ++ b] (some t)).memoryCache.get now'
          (m.hash (makeKeyData pre [a, b]))).2) from Prod.ext hget rfl]

/-- Witness for `cache_key_collision`: with the identity in place of MD5
(the collision is independent of the hash function), a value put under the
single part "a:b" is returned by a get under the two parts "a", "b". -/
theorem cache_key_collision_witness :
    (makeKeyData "search" ["a" ++ ":" ++ "b"] = makeKeyData "search" ["a", "b"]) ∧
    ((((⟨{}, fun s => s, ⟨10, [], 0, 0⟩,
          ⟨1000000, [], 0, [], 0, 0⟩⟩ : CacheManager).put 0 "search" "val"
          ["a" ++ ":" ++ "b"] (some 5)).get 1 "search" ["a", "b"]).1 =
      some "val") := by
  constructor
  · exact cache_key_collision.1 "search" "a" "b"
  · exact cache_key_collision.2.2
      ⟨{}, fun s => s, ⟨10, [], 0, 0⟩, ⟨1000000, [], 0, [], 0, 0⟩⟩
      0 1 "search" "a" "b" "val" 5 (by decide) (by norm_num) (by norm_num)

/-! ### Streaming pipeline

From `src/service/orchestrator/streaming/queues.py` (`BaseQueue`),
`workers.py` (the four workers), and `pipeline.py` (`StreamingPipeline`).

`BaseQueue.put` wraps `await asyncio.Queue.put(item)` in
`try/except asyncio.QueueFull`.  Awaiting `put` on a full `asyncio.Queue`
suspends the producer until a slot frees — `QueueFull` is raised only by
`put_nowait` — so the except branch is unreachable: a put on a full queue
blocks (`PutOutcome.blocked`, queue unchanged) and `total_dropped` is never
incremented.  An `asyncio.Queue` with `maxsize <= 0` is unbounded.

Worker processing is modelled one task at a time (dequeue the head, apply
the stage function, enqueue the derived task); the external collaborators
(providers, embedder, reranker HTTP service, judge) are parameters.  The
judge stage stores its final result in `JudgeWorker.results`
(`judgeResults` here); `StreamingPipeline.results` (`results` here) is the
separate dict polled by `StreamingPipeline.get_result`, which no code ever
writes. -/

inductive PutOutcome
  | enqueued
  | blocked
  deriving Repr, DecidableEq

structure BaseQueue (τ : Type) where
  maxsize : ℕ
  items : List τ
  totalPut : ℕ
  totalGet : ℕ
  totalDropped : ℕ
  deriving DecidableEq

/-- `BaseQueue.put` under real `asyncio.Queue` semantics: enqueue when the
queue is unbounded or below capacity, otherwise suspend the producer
(no drop, no counter change). -/
def BaseQueue.put {τ : Type} (q : BaseQueue τ) (item : τ) :
    PutOutcome × BaseQueue τ :=
  if q.maxsize = 0 ∨ q.items.length < q.maxsize then
    (.enqueued,
     { q with items := q.items ++ [item], totalPut := q.totalPut + 1 })
  else
    (.blocked, q)

structure SearchTaskM where
  queryId : String
  query : String
  providers : List String
  deriving DecidableEq

structure EmbeddingTaskM (σ : Type) where
  queryId : String
  query : String
  searchResults : σ
  deriving DecidableEq

structure RerankTaskM (κ δ : Type) where
  queryId : String
  query : String
  queryTokens : κ
  docTokens : δ
  deriving DecidableEq

structure JudgeTaskM (ρ : Type) where
  queryId : String
  query : String
  rerankedResults : ρ
  deriving DecidableEq

structure FinalResultM (ρ ε : Type) where
  queryId : String
  query : String
  results : ρ
  evaluations : ε
  status : String
  deriving DecidableEq

structure PipelineStateM (σ κ δ ρ ε : Type) where
  searchQ : BaseQueue SearchTaskM
  embedQ : BaseQueue (EmbeddingTaskM σ)
  rerankQ : BaseQueue (RerankTaskM κ δ)
  judgeQ : BaseQueue (JudgeTaskM ρ)
  judgeResults : List (String × FinalResultM ρ ε)
  results : List (String × FinalResultM ρ ε)
  isRunning : Bool
  deriving DecidableEq

variable {σ κ δ ρ ε : Type}

/-- `submit_query`: raises (`none`) when the pipeline is not running,
otherwise enqueues the search task immediately. -/
def submitQuery (s : PipelineStateM σ κ δ ρ ε)
    (queryId query : String) (providers : List String) :
    Option (PipelineStateM σ κ δ ρ ε) :=
  if s.isRunning then
    some { s with
      searchQ := (s.searchQ.put ⟨queryId, query, providers⟩).2 }
  else none

/-- One `SearchWorker` iteration: dequeue, search, emit the embedding task. -/
def searchStep (searchFn : List String → String → σ)
    (s : PipelineStateM σ κ δ ρ ε) : PipelineStateM σ κ δ ρ ε :=
  match s.searchQ.items with
  | [] => s
  | task :: rest =>
    { s with
        searchQ := { s.searchQ with
          items := rest
          totalGet := s.searchQ.totalGet + 1 }
        embedQ := (s.embedQ.put
          ⟨task.queryId, task.query, searchFn task.providers task.query⟩).2 }

/-- One `EmbeddingWorker` iteration. -/
def embedStep (embedQueryFn : String → κ) (embedDocsFn : σ → δ)
    (s : PipelineStateM σ κ δ ρ ε) : PipelineStateM σ κ δ ρ ε :=
  match s.embedQ.items with
  | [] => s
  | task :: rest =>
    { s with
        embedQ := { s.embedQ with
          items := rest
          totalGet := s.embedQ.totalGet + 1 }
        rerankQ := (s.rerankQ.put
          ⟨task.queryId, task.query, embedQueryFn task.query,
           embedDocsFn task.searchResults⟩).2 }

/-- One `RerankWorker` iteration. -/
def rerankStep (rerankFn : κ → δ → ρ)
    (s : PipelineStateM σ κ δ ρ ε) : PipelineStateM σ κ δ ρ ε :=
  match s.rerankQ.items with
  | [] => s
  | task :: rest =>
    { s with
        rerankQ := { s.rerankQ with
          items := rest
          totalGet := s.rerankQ.totalGet + 1 }
        judgeQ := (s.judgeQ.put
          ⟨task.queryId, task.query,
           rerankFn task.queryTokens task.docTokens⟩).2 }

/-- One `JudgeWorker` iteration: the final result is stored in the
worker's own `results` dict, keyed by query id, with status "completed". -/
def judgeStep (judgeFn : String → ρ → ε)
    (s : PipelineStateM σ κ δ ρ ε) : PipelineStateM σ κ δ ρ ε :=
  match s.judgeQ.items with
  | [] => s
  | task :: rest =>
    { s with
        judgeQ := { s.judgeQ with
          items := rest
          totalGet := s.judgeQ.totalGet + 1 }
        judgeResults := assocUpdate task.queryId
          ⟨task.queryId, task.query, task.rerankedResults,
           judgeFn task.query task.rerankedResults, "completed"⟩
          s.judgeResults }

/-- `StreamingPipeline.get_result`: the poll loop returns
`self.results[query_id]` as soon as it is present and `None` (the timeout
indication) otherwise; with the result map constant during the call this is
a lookup in `StreamingPipeline.results`. -/
def getResult (s : PipelineStateM σ κ δ ρ ε) (queryId : String) :
    Option (FinalResultM ρ ε) :=
  assocFind queryId s.results

/-- `JudgeWorker.get_result`: a lookup in the judge worker's own dict. -/
def judgeWorkerGetResult (s : PipelineStateM σ κ δ ρ ε) (queryId : String) :
    Option (FinalResultM ρ ε) :=
  assocFind queryId s.judgeResults

/-- C1 (the code refutes the claim): a query submitted to a running
pipeline and carried through all four stages ends with its completed result
stored in the judge worker's dict — yet `StreamingPipeline.get_result`
polls the pipeline's own `results` dict, which none of the pipeline's
operations ever writes, so it returns the timeout indication even though
the completed result exists.  The second group of conjuncts shows the
divergence is universal: every pipeline operation leaves
`StreamingPipeline.results` unchanged (and it starts empty), so the map
polled by `get_result` can never contain any query's result. -/
theorem pipeline_get_result_never_sees_completed_result :
    (judgeWorkerGetResult
        (judgeStep (fun _ r => r)
          (rerankStep (fun q d => q + d)
            (embedStep (fun _ => 1) (fun r2 => r2)
              (searchStep (fun _ _ => 7)
                ((submitQuery
                    (⟨⟨100, [], 0, 0, 0⟩, ⟨100, [], 0, 0, 0⟩,
                      ⟨100, [], 0, 0, 0⟩, ⟨100, [], 0, 0, 0⟩, [], [],
                      true⟩ : PipelineStateM ℕ ℕ ℕ ℕ ℕ)
                    "q1" "lean theorem prover" ["ddg"]).getD
                  ⟨⟨100, [], 0, 0, 0⟩, ⟨100, [], 0, 0, 0⟩,
                   ⟨100, [], 0, 0, 0⟩, ⟨100, [], 0, 0, 0⟩, [], [], true⟩)))))
        "q1" =
      some ⟨"q1", "lean theorem prover", 8, 8, "completed"⟩)
    ∧
    (getResult
        (judgeStep (fun _ r => r)
          (rerankStep (fun q d => q + d)
            (embedStep (fun _ => 1) (fun r2 => r2)
              (searchStep (fun _ _ => 7)
                ((submitQuery
                    (⟨⟨100, [], 0, 0, 0⟩, ⟨100, [], 0, 0, 0⟩,
                      ⟨100, [], 0, 0, 0⟩, ⟨100, [], 0, 0, 0⟩, [], [],
                      true⟩ : PipelineStateM ℕ ℕ ℕ ℕ ℕ)
                    "q1" "lean theorem prover" ["ddg"]).getD
                  ⟨⟨100, [], 0, 0, 0⟩, ⟨100, [], 0, 0, 0⟩,
                   ⟨100, [], 0, 0, 0⟩, ⟨100, [], 0, 0, 0⟩, [], [], true⟩)))))
        "q1" = none)
    ∧
    (∀ (σ κ δ ρ ε : Type) (f : List String → String → σ)
       (s : PipelineStateM σ κ δ ρ ε), (searchStep f s).results = s.results)
    ∧
    (∀ (σ κ δ ρ ε : Type) (f : String → κ) (g : σ → δ)
       (s : PipelineStateM σ κ δ ρ ε),
       (embedStep f g s).results = s.results)
    ∧
    (∀ (σ κ δ ρ ε : Type) (f : κ → δ → ρ)
       (s : PipelineStateM σ κ δ ρ ε), (rerankStep f s).results = s.results)
    ∧
    (∀ (σ κ δ ρ ε : Type) (f : String → ρ → ε)
       (s : PipelineStateM σ κ δ ρ ε), (judgeStep f s).results = s.results)
    ∧
    (∀ (σ κ δ ρ ε : Type) (s : PipelineStateM σ κ δ ρ ε)
       (queryId query : String) (providers : List String),
       ((submitQuery s queryId query providers).getD s).results = s.results) := by
  refine ⟨by decide, by decide, ?_, ?_, ?_, ?_, ?_⟩
  · intro σ κ δ ρ ε f s
    cases h : s.searchQ.items <;> simp [searchStep, h]
  · intro σ κ δ ρ ε f g s
    cases h : s.embedQ.items <;> simp [embedStep, h]
  · intro σ κ δ ρ ε f s
    cases h : s.rerankQ.items <;> simp [rerankStep, h]
  · intro σ κ δ ρ ε f s
    cases h : s.judgeQ.items <;> simp [judgeStep, h]
  · intro σ κ δ ρ ε s queryId query providers
    by_cases h : s.isRunning <;> simp [submitQuery, h]

/-- C2 (the code refutes the claim): the drop counter of `BaseQueue` is
never incremented by any put, and in the capacity-2 scenario the third put
blocks the producer with the queue unchanged (first two items still
queued, nothing dropped, nothing counted), because `await asyncio.Queue.put`
suspends on a full queue instead of raising `QueueFull`. -/
theorem queue_full_put_blocks_not_drops :
    (∀ (τ : Type) (q : BaseQueue τ) (item : τ),
       ((q.put item).2).totalDropped = q.totalDropped)
    ∧
    (((((⟨2, [], 0, 0, 0⟩ : BaseQueue ℕ).put 1).2.put 2).2.put 3).1 =
       .blocked)
    ∧
    (((((⟨2, [], 0, 0, 0⟩ : BaseQueue ℕ).put 1).2.put 2).2.put 3).2.items =
       [1, 2])
    ∧
    (((((⟨2, [], 0, 0, 0⟩ : BaseQueue ℕ).put 1).2.put 2).2.put 3).2.totalDropped =
       0) := by
  refine ⟨?_, by decide, by decide, by decide⟩
  intro τ q item
  unfold BaseQueue.put
  split <;> rfl
